import Mathlib

/-!
Verification of the `Node` API of a structural code search-and-rewrite engine
(`src/node.rs`), shallowly embedded in Lean.

Modelling conventions:
* the parsed syntax tree produced by the external `tree_sitter` library is
  modelled by the inductive `TSNode` (kind, byte span, ordered children);
* `Node<'r>` — the pair of a `tree_sitter::Node` and a borrowed `&str` source —
  is modelled by the structure `Node` holding a `TSNode` and the source as a
  list of characters, with byte offsets computed from UTF-8 character sizes;
* Rust methods taking `&mut self` are embedded in state-passing style,
  returning the (possibly updated) receiver alongside the result;
* a Rust panic (`expect`, `todo!`) is embedded as the error / `none` branch of
  an `Except` / `Option` result.
-/

/-- A node of the parsed concrete syntax tree, as exposed by the external
parsing library: a grammar kind, a byte span `[startByte, endByte)` into the
source text, and the ordered list of immediate children. -/
inductive TSNode where
  | mk (kind : String) (startByte : Nat) (endByte : Nat) (children : List TSNode)

def TSNode.kind : TSNode → String
  | .mk k _ _ _ => k

def TSNode.startByte : TSNode → Nat
  | .mk _ s _ _ => s

def TSNode.endByte : TSNode → Nat
  | .mk _ _ e _ => e

def TSNode.children : TSNode → List TSNode
  | .mk _ _ _ cs => cs

/-- Rust `tree_sitter::Node::child_count`. -/
def TSNode.childCount (t : TSNode) : Nat :=
  t.children.length

/-- The number of bytes of the UTF-8 encoding of a character list. -/
def byteLen (s : List Char) : Nat :=
  match s with
  | [] => 0
  | c :: cs => c.utf8Size + byteLen cs

/-- Drop exactly `n` leading bytes from a character list; fails when `n` does
not fall on a character boundary (or runs past the end). -/
def dropBytes : List Char → Nat → Option (List Char)
  | s, 0 => some s
  | [], _ + 1 => none
  | c :: cs, n + 1 =>
    if c.utf8Size ≤ n + 1 then dropBytes cs (n + 1 - c.utf8Size) else none

/-- Take exactly `n` leading bytes from a character list; fails when `n` does
not fall on a character boundary (or runs past the end). -/
def takeBytes : List Char → Nat → Option (List Char)
  | _, 0 => some []
  | [], _ + 1 => none
  | c :: cs, n + 1 =>
    if c.utf8Size ≤ n + 1 then (takeBytes cs (n + 1 - c.utf8Size)).map (c :: ·) else none

/-- The source slice for the byte range `[a, b)`: the model of slicing the
source bytes and re-validating them as text (`&source[a..b]` followed by
UTF-8 validation inside `tree_sitter::Node::utf8_text`). It succeeds exactly
when `a ≤ b` and both offsets fall on character boundaries inside the text. -/
def utf8Slice (s : List Char) (a b : Nat) : Option (List Char) :=
  if a ≤ b then (dropBytes s a).bind (fun rest => takeBytes rest (b - a)) else none

/-- Rust `Node<'r>`: the tree node together with its borrowed source text. -/
structure Node where
  inner : TSNode
  source : List Char

/-- Rust `Node::is_leaf`. -/
def Node.is_leaf (n : Node) : Bool :=
  n.inner.childCount == 0

/-- Rust `Node::kind`. -/
def Node.kind (n : Node) : String :=
  n.inner.kind

/-- The failure of `Node::text`: the node's byte span does not align with
valid text boundaries (the `EncodingError` of the design). -/
inductive TextError where
  | encodingError

/-- Rust `Node::text`: the exact source slice for the node's byte span. The
`expect` panic on invalid encoding is embedded as the `Except.error` branch. -/
def Node.text (n : Node) : Except TextError (List Char) :=
  match utf8Slice n.source n.inner.startByte n.inner.endByte with
  | some cs => .ok cs
  | none => .error .encodingError

/-- Rust `tree_sitter::TreeCursor`, restricted to the operations `node.rs` uses: it
sits on a current node and remembers the following siblings at that level. -/
structure TreeCursor where
  node : TSNode
  rest : List TSNode

/-- Rust `tree_sitter::Node::walk`: a cursor seated on the node itself. -/
def TSNode.walk (t : TSNode) : TreeCursor :=
  { node := t, rest := [] }

/-- Rust `TreeCursor::goto_first_child`: move to the first child when one exists,
otherwise stay put. -/
def TreeCursor.gotoFirstChild (c : TreeCursor) : TreeCursor :=
  match c.node.children with
  | [] => c
  | x :: xs => { node := x, rest := xs }

/-- Rust `TreeCursor::goto_next_sibling`: move to the next sibling when one exists,
otherwise stay put. -/
def TreeCursor.gotoNextSibling (c : TreeCursor) : TreeCursor :=
  match c.rest with
  | [] => c
  | x :: xs => { node := x, rest := xs }

/-- The `NodeWalker` iterator of `node.rs`. -/
structure NodeWalker where
  cursor : TreeCursor
  source : List Char
  count : Nat

/-- Rust `ExactSizeIterator::len` for `NodeWalker`. -/
def NodeWalker.len (w : NodeWalker) : Nat :=
  w.count

/-- Rust `Iterator::next` for `NodeWalker`, in state-passing style: when `count`
is zero the walker is exhausted; otherwise it yields the cursor's node,
advances to the next sibling and decrements `count`. -/
def NodeWalker.next (w : NodeWalker) : Option Node × NodeWalker :=
  if w.count = 0 then (none, w)
  else
    (some { inner := w.cursor.node, source := w.source },
     { cursor := w.cursor.gotoNextSibling, source := w.source, count := w.count - 1 })

/-- Rust `Node::children`: seat a cursor on the node, move it to the first child,
and hand out a walker bounded by `child_count`. -/
def Node.children (n : Node) : NodeWalker :=
  { cursor := n.inner.walk.gotoFirstChild
    source := n.source
    count := n.inner.childCount }

/-- Drain a walker for at most `fuel` steps, collecting the yielded nodes. -/
def NodeWalker.takeAll : Nat → NodeWalker → List Node
  | 0, _ => []
  | fuel + 1, w =>
    match w.next with
    | (none, _) => []
    | (some x, w') => x :: NodeWalker.takeAll fuel w'

/-- All elements an iteration of the walker yields (its `count` bounds the
number of `next` calls that can succeed). -/
def NodeWalker.toList (w : NodeWalker) : List Node :=
  NodeWalker.takeAll w.count w

/-- Resolve a path of child indices from a root tree node; the model of the
identity of a `tree_sitter` node inside its tree. -/
def TSNode.get? : TSNode → List Nat → Option TSNode
  | t, [] => some t
  | t, i :: p =>
    match t.children.get? i with
    | some c => TSNode.get? c p
    | none => none

/-- Rust `tree_sitter::Node::parent`, on path-identified nodes: the node one step
up the path, and nothing at the root (the empty path). -/
def parentAt (root : TSNode) (p : List Nat) : Option (List Nat × TSNode) :=
  if p = [] then none
  else (TSNode.get? root p.dropLast).map (fun t => (p.dropLast, t))

/-- Rust `Node::attr`: an unimplemented placeholder with an empty body. -/
def Node.attr (n : Node) : Unit × Node := ((), n)

/-- Rust `Node::replace_by`: an unimplemented placeholder with an empty body. -/
def Node.replace_by (n : Node) : Unit × Node := ((), n)

/-- Rust `Node::after`: an unimplemented placeholder with an empty body. -/
def Node.after (n : Node) : Unit × Node := ((), n)

/-- Rust `Node::before`: an unimplemented placeholder with an empty body. -/
def Node.before (n : Node) : Unit × Node := ((), n)

/-- Rust `Node::append`: an unimplemented placeholder with an empty body. -/
def Node.append (n : Node) : Unit × Node := ((), n)

/-- Rust `Node::prepend`: an unimplemented placeholder with an empty body. -/
def Node.prepend (n : Node) : Unit × Node := ((), n)

/-- Rust `Node::empty`: an unimplemented placeholder with an empty body. -/
def Node.empty (n : Node) : Unit × Node := ((), n)

/-- Rust `Node::remove`: an unimplemented placeholder with an empty body. -/
def Node.remove (n : Node) : Unit × Node := ((), n)

/-- Rust `Node::clone`: an unimplemented placeholder with an empty body. -/
def Node.clone (n : Node) : Unit × Node := ((), n)

/-- Rust `Node::eq`: its body is `todo!()`, an unconditional panic; the panic is
embedded as `none`, so the method never produces a node. -/
def Node.eq (n : Node) (i : Nat) : Option Node := none

/-- Rust `Node::each`: its body is `todo!()`, an unconditional panic; the panic is
embedded as `none`, so the method never produces a result. -/
def Node.each (n : Node) (f : Node → Unit) : Option Unit := none

/-- Modelled from the spec: the compiled `Pattern` (the pattern compiler and
the `Pattern` type live outside `src/`). A pattern tree node is either a named
metavariable (matching any single subtree), a literal leaf (matching on kind
and exact text), or a literal internal node (matching on kind and pairwise on
children). The variadic metavariable form is not modelled. -/
inductive Pattern where
  | metaVar (name : String)
  | leaf (kind : String) (text : List Char)
  | internal (kind : String) (children : List Pattern)

/-- Modelled from the spec: the capture `Environment`, a mapping from
metavariable name to the captured node, built incrementally during matching. -/
abbrev Env := List (String × TSNode)

/-- The text of a candidate node as the matcher and replacer see it: the
source slice of its byte span. -/
def nodeTextAt (source : List Char) (t : TSNode) : Option (List Char) :=
  utf8Slice source t.startByte t.endByte

/-- Modelled from the spec: binding a metavariable, with the non-linear
consistency check — a name already bound succeeds only if the previously
bound node's kind and text are identical to the candidate's. -/
def bindMeta (source : List Char) (x : String) (t : TSNode) (env : Env) : Option Env :=
  match env.lookup x with
  | none => some ((x, t) :: env)
  | some prev =>
    if prev.kind = t.kind ∧ nodeTextAt source prev = nodeTextAt source t then some env
    else none

mutual
/-- Modelled from the spec: the structural recursive comparison of the
matcher (steps 1-3 of `match_one`'s algorithm; the matcher lives outside
`src/`), threading the environment functionally. -/
def matchPat (source : List Char) : Pattern → TSNode → Env → Option Env
  | .metaVar x, t, env => bindMeta source x t env
  | .leaf k txt, t, env =>
    if t.kind = k ∧ nodeTextAt source t = some txt then some env else none
  | .internal k ps, t, env =>
    if t.kind = k then matchChildren source ps t.children env else none

/-- Modelled from the spec: pairwise recursive matching of pattern children
against candidate children, failing on any child-count mismatch. -/
def matchChildren (source : List Char) : List Pattern → List TSNode → Env → Option Env
  | [], [], env => some env
  | p :: ps, c :: cs, env =>
    match matchPat source p c env with
    | some env' => matchChildren source ps cs env'
    | none => none
  | _, _, _ => none
end

/-- Modelled from the spec: `match_one(pattern, candidate)` returns the
capture environment of a successful match, starting from no bindings, or
nothing on any mismatch (partial bindings are discarded). -/
def matchOne (source : List Char) (p : Pattern) (t : TSNode) : Option Env :=
  matchPat source p t []

mutual
/-- Modelled from the spec: `Pattern::find_node_easy` (outside `src/`) — a
depth-first pre-order traversal attempting `match_one` at each node in order
and returning the first matched node with its environment. -/
def findNodeEasy (source : List Char) (p : Pattern) : TSNode → Option (TSNode × Env)
  | .mk k a b cs =>
    match matchOne source p (.mk k a b cs) with
    | some env => some (.mk k a b cs, env)
    | none => findEasyList source p cs

/-- The first-match search of `findNodeEasy`, over a sibling list in order. -/
def findEasyList (source : List Char) (p : Pattern) : List TSNode → Option (TSNode × Env)
  | [] => none
  | c :: cs =>
    match findNodeEasy source p c with
    | some r => some r
    | none => findEasyList source p cs
end

mutual
/-- Modelled from the spec: `Pattern::find_node_vec` (outside `src/`) — the
same pre-order traversal, collecting every node at which `match_one`
succeeds, each candidate tried independently. -/
def findNodeVec (source : List Char) (p : Pattern) : TSNode → List TSNode
  | .mk k a b cs =>
    (if (matchOne source p (.mk k a b cs)).isSome then [TSNode.mk k a b cs] else [])
      ++ findVecList source p cs

/-- The collecting search of `findNodeVec`, over a sibling list in order. -/
def findVecList (source : List Char) (p : Pattern) : List TSNode → List TSNode
  | [] => []
  | c :: cs => findNodeVec source p c ++ findVecList source p cs
end

mutual
/-- The depth-first pre-order listing of the nodes of a tree: the node
itself, then the pre-order listings of its children left to right. -/
def preorder : TSNode → List TSNode
  | .mk k a b cs => .mk k a b cs :: preorderList cs

/-- The concatenated pre-order listings of a list of sibling trees. -/
def preorderList : List TSNode → List TSNode
  | [] => []
  | c :: cs => preorder c ++ preorderList cs
end

/-- The `Edit` record of the engine: a byte-range splice. The `inserted_text`
is owned data, independent of the tree and source it was computed from. -/
structure Edit where
  position : Nat
  deleted_length : Nat
  inserted_text : List Char

/-- Rust `Node::find`: compile the pattern (`pat.into()`, standing for
`Pattern::new`, is the `compile` argument — the pattern compiler needs the
external grammar), search with `find_node_easy`, and keep only the node. -/
def Node.find (compile : String → Pattern) (n : Node) (patStr : String) : Option Node :=
  (findNodeEasy n.source (compile patStr) n.inner).map
    (fun f => { inner := f.1, source := n.source })

/-- Rust `Node::find_all`: compile the pattern and collect every match with
`find_node_vec`. -/
def Node.find_all (compile : String → Pattern) (n : Node) (patStr : String) : List Node :=
  (findNodeVec n.source (compile patStr) n.inner).map
    (fun t => { inner := t, source := n.source })

/-- Rust `Node::replace`, embedded in state-passing style for `&mut self`.
It compiles `pattern_str` with `Pattern::new` (the `compile` argument), runs
`find_node_easy`, and on success builds an `Edit` from the matched node's
span and the replacer's output (`generate_replacement` is the function `r`). -/
def Node.replace (compile : String → Pattern) (n : Node) (patStr : String)
    (r : Env → List Char) : Option Edit × Node :=
  let to_match := compile patStr
  match findNodeEasy n.source to_match n.inner with
  | none => (none, n)
  | some (node, env) =>
    let position := node.startByte
    let deleted_length := node.endByte - position
    let inserted_text := r env
    (some { position, deleted_length, inserted_text }, n)

/-- Modelled from the spec: the parse tree the external parser produces for
the source "let a = 123" (tree construction via `Root::new` lives outside
`src/`): the root holds a single statement child whose two children are the
keyword `let` (bytes 0-3) and the declarator `a = 123` (bytes 4-11). -/
def letSource : List Char := "let a = 123".data

def letKeyword : TSNode := .mk "let" 0 3 []

def letDeclarator : TSNode :=
  .mk "variable_declarator" 4 11
    [.mk "identifier" 4 5 [], .mk "=" 6 7 [], .mk "number" 8 11 []]

def letStatement : TSNode := .mk "lexical_declaration" 0 11 [letKeyword, letDeclarator]

def letProgram : TSNode := .mk "program" 0 11 [letStatement]

/-- The root `Node` handed out for the source `"let a = 123"`. -/
def letRootNode : Node := { inner := letProgram, source := letSource }

theorem takeAll_cursor (src : List Char) :
    ∀ (k : Nat) (c : TSNode) (rest : List TSNode) (fuel : Nat),
      k ≤ rest.length + 1 → k ≤ fuel →
      NodeWalker.takeAll fuel ⟨⟨c, rest⟩, src, k⟩ =
        ((c :: rest).take k).map (fun u => ⟨u, src⟩)
  | 0, c, rest, fuel, _, _ => by
    cases fuel <;> simp [NodeWalker.takeAll, NodeWalker.next]
  | k + 1, c, rest, fuel, hk, hf => by
    match fuel, hf with
    | f + 1, _ =>
      cases rest with
      | nil =>
        have hk0 : k = 0 := by simp at hk; omega
        subst hk0
        cases f <;>
          simp [NodeWalker.takeAll, NodeWalker.next, TreeCursor.gotoNextSibling]
      | cons x xs =>
        have ih := takeAll_cursor src k x xs f (by simp at hk ⊢; omega) (by omega)
        simp [NodeWalker.takeAll, NodeWalker.next, TreeCursor.gotoNextSibling, ih]

theorem children_toList (n : Node) :
    (Node.children n).toList = n.inner.children.map (fun u => ⟨u, n.source⟩) := by
  cases hcs : n.inner.children with
  | nil =>
    simp [Node.children, NodeWalker.toList, TSNode.childCount, hcs, NodeWalker.takeAll]
  | cons c cs =>
    have h := takeAll_cursor n.source (cs.length + 1) c cs (cs.length + 1)
      (by omega) (by omega)
    simp only [Node.children, NodeWalker.toList, TSNode.childCount, hcs,
      TSNode.walk, TreeCursor.gotoFirstChild, List.length_cons]
    rw [h]
    have : (c :: cs).take (cs.length + 1) = c :: cs := by
      simpa using List.take_length (c :: cs)
    rw [this]

/-- C4: `children()` yields exactly the node's immediate children in source
order (as nodes over the same source); its reported exact length starts at
the child count, decreases by one per yielded element, and the sequence ends
after exactly child-count elements, yielding nothing for a leaf. A call to
`children()` builds a fresh walker from the node alone, so every call yields
this same sequence. -/
theorem children_walker_spec (n : Node) :
    (Node.children n).toList = n.inner.children.map (fun u => ⟨u, n.source⟩) ∧
    (Node.children n).toList.length = n.inner.childCount ∧
    (Node.children n).len = n.inner.childCount ∧
    (∀ (w : NodeWalker) (x : Node) (w' : NodeWalker),
      w.next = (some x, w') → w'.len + 1 = w.len) ∧
    (∀ w : NodeWalker, w.len = 0 → (w.next).1 = none) ∧
    (n.is_leaf = true → (Node.children n).toList = []) := by
  refine ⟨children_toList n, ?_, rfl, ?_, ?_, ?_⟩
  · rw [children_toList n]; simp [TSNode.childCount]
  · intro w x w' h
    by_cases h0 : w.count = 0
    · simp [NodeWalker.next, h0] at h
    · simp only [NodeWalker.next, if_neg h0] at h
      simp only [Prod.mk.injEq] at h
      obtain ⟨-, h2⟩ := h
      rw [← h2]
      simp only [NodeWalker.len]
      omega
  · intro w h0
    simp [NodeWalker.next, NodeWalker.len] at h0 ⊢
    simp [h0]
  · intro h
    simp [Node.is_leaf, TSNode.childCount] at h
    rw [children_toList n]
    simp [h]

/-- Witness for C4: one full iteration of the walker over the concrete
scenario tree, step by step. -/
theorem children_walker_spec_witness :
    (Node.children letRootNode).next =
      (some ⟨letStatement, letSource⟩, ⟨⟨letStatement, []⟩, letSource, 0⟩) ∧
    (⟨⟨letStatement, []⟩, letSource, 0⟩ : NodeWalker).len + 1 =
      (Node.children letRootNode).len ∧
    ((⟨⟨letStatement, []⟩, letSource, 0⟩ : NodeWalker).next).1 = none ∧
    (Node.mk letKeyword letSource).is_leaf = true ∧
    (Node.children ⟨letKeyword, letSource⟩).toList = [] := by
  refine ⟨rfl, ?_, ?_, rfl, ?_⟩
  · exact (children_walker_spec letRootNode).2.2.2.1 _ _ _ rfl
  · exact (children_walker_spec letRootNode).2.2.2.2.1 _ rfl
  · exact (children_walker_spec ⟨letKeyword, letSource⟩).2.2.2.2.2 rfl

/-- C8: for the source "let a = 123", the root is not a leaf, it has exactly
one child, and that child's children have texts "let" and "a = 123", in that
order. -/
theorem let_scenario :
    letRootNode.is_leaf = false ∧
    (Node.children letRootNode).toList.length = 1 ∧
    ((Node.children letRootNode).toList.map
      (fun c => (Node.children c).toList.map Node.text)) =
      [[Except.ok "let".data, Except.ok "a = 123".data]] :=
  ⟨rfl, rfl, rfl⟩

/-- C9: the placeholder manipulation operations return unit, produce no edit
and no error, and leave the node — hence the tree and the source — entirely
unchanged. -/
theorem placeholders_noops (n : Node) :
    Node.attr n = ((), n) ∧ Node.replace_by n = ((), n) ∧ Node.after n = ((), n) ∧
    Node.before n = ((), n) ∧ Node.append n = ((), n) ∧ Node.prepend n = ((), n) ∧
    Node.empty n = ((), n) ∧ Node.remove n = ((), n) ∧ Node.clone n = ((), n) :=
  ⟨rfl, rfl, rfl, rfl, rfl, rfl, rfl, rfl, rfl⟩

/-- C10: `eq` and `each` hit the unconditional `todo!()` panic (embedded as
`none`), so no caller ever observes a result from either operation. -/
theorem eq_each_never_return (n : Node) (i : Nat) (f : Node → Unit) :
    Node.eq n i = none ∧ Node.each n f = none :=
  ⟨rfl, rfl⟩

/-- C2: `replace` never mutates the tree or the source: the returned receiver
is the original node, with kind, span, text, and children unchanged; the only
artifact is the returned edit, whose inserted text is independent data. -/
theorem replace_frame (compile : String → Pattern) (n : Node) (patStr : String)
    (r : Env → List Char) :
    (Node.replace compile n patStr r).2 = n ∧
    (Node.replace compile n patStr r).2.kind = n.kind ∧
    (Node.replace compile n patStr r).2.inner.startByte = n.inner.startByte ∧
    (Node.replace compile n patStr r).2.inner.endByte = n.inner.endByte ∧
    (Node.replace compile n patStr r).2.text = n.text ∧
    (Node.children (Node.replace compile n patStr r).2).toList =
      (Node.children n).toList ∧
    (Node.replace compile n patStr r).2.source = n.source := by
  have h2 : (Node.replace compile n patStr r).2 = n := by
    cases h : findNodeEasy n.source (compile patStr) n.inner with
    | none => simp [Node.replace, h]
    | some x => cases x with | mk a b => simp [Node.replace, h]
  exact ⟨h2, by rw [h2], by rw [h2], by rw [h2], by rw [h2], by rw [h2], by rw [h2]⟩

theorem dropBytes_some (s : List Char) : ∀ (a : Nat) (r : List Char),
    dropBytes s a = some r → ∃ pre, s = pre ++ r ∧ byteLen pre = a := by
  induction s with
  | nil =>
    intro a r h
    cases a with
    | zero =>
      simp [dropBytes] at h
      exact ⟨[], by simp [h], rfl⟩
    | succ a' => simp [dropBytes] at h
  | cons c cs ih =>
    intro a r h
    cases a with
    | zero =>
      simp [dropBytes] at h
      exact ⟨[], by simp [h], rfl⟩
    | succ a' =>
      simp only [dropBytes] at h
      by_cases hsz : c.utf8Size ≤ a' + 1
      · rw [if_pos hsz] at h
        obtain ⟨pre, hpre, hlen⟩ := ih _ _ h
        exact ⟨c :: pre, by simp [hpre], by simp [byteLen]; omega⟩
      · rw [if_neg hsz] at h
        exact absurd h (by simp)

theorem dropBytes_append (pre : List Char) : ∀ (r : List Char),
    dropBytes (pre ++ r) (byteLen pre) = some r := by
  induction pre with
  | nil => intro r; simp [dropBytes, byteLen]
  | cons c cs ih =>
    intro r
    have hsz := Char.utf8Size_pos c
    obtain ⟨m, hm⟩ : ∃ m, c.utf8Size + byteLen cs = m + 1 :=
      ⟨c.utf8Size + byteLen cs - 1, by omega⟩
    show dropBytes (c :: (cs ++ r)) (c.utf8Size + byteLen cs) = some r
    rw [hm]
    simp only [dropBytes]
    rw [if_pos (by omega)]
    have hrest : m + 1 - c.utf8Size = byteLen cs := by omega
    rw [hrest]
    exact ih r

theorem takeBytes_some (s : List Char) : ∀ (k : Nat) (m : List Char),
    takeBytes s k = some m → ∃ post, s = m ++ post ∧ byteLen m = k := by
  induction s with
  | nil =>
    intro k m h
    cases k with
    | zero =>
      simp [takeBytes] at h
      subst h
      exact ⟨[], rfl, rfl⟩
    | succ k' => simp [takeBytes] at h
  | cons c cs ih =>
    intro k m h
    cases k with
    | zero =>
      simp [takeBytes] at h
      subst h
      exact ⟨c :: cs, rfl, rfl⟩
    | succ k' =>
      simp only [takeBytes] at h
      by_cases hsz : c.utf8Size ≤ k' + 1
      · rw [if_pos hsz] at h
        rcases Option.map_eq_some'.mp h with ⟨m', hm', rfl⟩
        obtain ⟨post, hpost, hlen⟩ := ih _ _ hm'
        exact ⟨post, by simp [hpost], by simp [byteLen]; omega⟩
      · rw [if_neg hsz] at h
        exact absurd h (by simp)

theorem takeBytes_append (m : List Char) : ∀ (post : List Char),
    takeBytes (m ++ post) (byteLen m) = some m := by
  induction m with
  | nil => intro post; simp [takeBytes, byteLen]
  | cons c cs ih =>
    intro post
    have hsz := Char.utf8Size_pos c
    obtain ⟨k, hk⟩ : ∃ k, c.utf8Size + byteLen cs = k + 1 :=
      ⟨c.utf8Size + byteLen cs - 1, by omega⟩
    show takeBytes (c :: (cs ++ post)) (c.utf8Size + byteLen cs) = some (c :: cs)
    rw [hk]
    simp only [takeBytes]
    rw [if_pos (by omega)]
    have hrest : k + 1 - c.utf8Size = byteLen cs := by omega
    rw [hrest, ih post]
    rfl

theorem utf8Slice_eq_some_iff (s m : List Char) (a b : Nat) :
    utf8Slice s a b = some m ↔
      ∃ pre post, s = pre ++ m ++ post ∧ byteLen pre = a ∧
        byteLen pre + byteLen m = b := by
  unfold utf8Slice
  by_cases hab : a ≤ b
  · rw [if_pos hab]
    constructor
    · intro h
      rcases Option.bind_eq_some.mp h with ⟨r, hr, ht⟩
      obtain ⟨pre, rfl, hpre⟩ := dropBytes_some s a r hr
      obtain ⟨post, rfl, hm⟩ := takeBytes_some r (b - a) m ht
      exact ⟨pre, post, by simp, hpre, by omega⟩
    · rintro ⟨pre, post, rfl, rfl, hm⟩
      have h1 : dropBytes (pre ++ (m ++ post)) (byteLen pre) = some (m ++ post) :=
        dropBytes_append pre (m ++ post)
      have h2 : takeBytes (m ++ post) (b - byteLen pre) = some m := by
        have : b - byteLen pre = byteLen m := by omega
        rw [this]
        exact takeBytes_append m post
      rw [List.append_assoc]
      rw [Option.bind_eq_some]
      exact ⟨m ++ post, h1, h2⟩
  · rw [if_neg hab]
    constructor
    · intro h; exact absurd h (by simp)
    · rintro ⟨pre, post, rfl, rfl, hm⟩
      exact absurd (by omega : byteLen pre ≤ b) hab

/-- C3: `text()` returns the exact source slice for the node's byte span —
it succeeds with `m` exactly when the source splits as `pre ++ m ++ post`
with `pre` occupying exactly `startByte` bytes and `m` exactly the span — and
otherwise fails with an `EncodingError`; in particular no truncated or
otherwise different text is ever returned. -/
theorem text_spec (n : Node) :
    (∀ m : List Char, Node.text n = .ok m ↔
      ∃ pre post, n.source = pre ++ m ++ post ∧
        byteLen pre = n.inner.startByte ∧
        byteLen pre + byteLen m = n.inner.endByte) ∧
    (Node.text n = .error .encodingError ↔
      ¬ ∃ m pre post, n.source = pre ++ m ++ post ∧
        byteLen pre = n.inner.startByte ∧
        byteLen pre + byteLen m = n.inner.endByte) := by
  have hok : ∀ m, Node.text n = .ok m ↔
      utf8Slice n.source n.inner.startByte n.inner.endByte = some m := by
    intro m
    unfold Node.text
    cases h : utf8Slice n.source n.inner.startByte n.inner.endByte <;> simp
  have herr : Node.text n = .error .encodingError ↔
      utf8Slice n.source n.inner.startByte n.inner.endByte = none := by
    unfold Node.text
    cases h : utf8Slice n.source n.inner.startByte n.inner.endByte <;> simp
  constructor
  · intro m
    rw [hok m, utf8Slice_eq_some_iff]
  · rw [herr]
    constructor
    · rintro hnone ⟨m, pre, post, h1, h2, h3⟩
      have hsome := (utf8Slice_eq_some_iff n.source m n.inner.startByte
        n.inner.endByte).mpr ⟨pre, post, h1, h2, h3⟩
      rw [hnone] at hsome
      exact Option.noConfusion hsome
    · intro hne
      cases h : utf8Slice n.source n.inner.startByte n.inner.endByte with
      | none => rfl
      | some m =>
        obtain ⟨pre, post, h1, h2, h3⟩ := (utf8Slice_eq_some_iff n.source m
          n.inner.startByte n.inner.endByte).mp h
        exact absurd ⟨m, pre, post, h1, h2, h3⟩ hne

/-- Witness for C3: on the `let` keyword node of the concrete scenario,
`text()` evaluates to `"let"` and the theorem produces the exact-slice
decomposition of the source at bytes 0-3. -/
theorem text_spec_witness :
    Node.text ⟨letKeyword, letSource⟩ = Except.ok "let".data ∧
    (∃ pre post, letSource = pre ++ "let".data ++ post ∧
      byteLen pre = letKeyword.startByte ∧
      byteLen pre + byteLen "let".data = letKeyword.endByte) :=
  ⟨rfl, ((text_spec ⟨letKeyword, letSource⟩).1 "let".data).mp rfl⟩

theorem findSome_append {α β : Type} (f : α → Option β) :
    ∀ (l₁ l₂ : List α), (l₁ ++ l₂).findSome? f =
      match l₁.findSome? f with
      | some b => some b
      | none => l₂.findSome? f
  | [], l₂ => by simp
  | c :: cs, l₂ => by
    cases h : f c with
    | some b => simp [List.findSome?_cons, h]
    | none => simp [List.findSome?_cons, h, findSome_append f cs l₂]

theorem findSome_map {α β γ : Type} (F : α → Option β) (k : β → γ) :
    ∀ l : List α, (l.findSome? F).map k = l.findSome? (fun u => (F u).map k)
  | [] => by simp
  | c :: cs => by
    cases h : F c with
    | some b => simp [List.findSome?_cons, h]
    | none => simp [List.findSome?_cons, h, findSome_map F k cs]

theorem filter_head_eq_findSome {α β : Type} (g : α → Option β) :
    ∀ l : List α, (l.filter (fun u => (g u).isSome)).head? =
      (l.findSome? (fun u => (g u).map (fun e => (u, e)))).map Prod.fst
  | [] => by simp
  | c :: cs => by
    cases h : g c with
    | some e => simp [List.filter_cons, List.findSome?_cons, h]
    | none =>
      simp [List.filter_cons, List.findSome?_cons, h, filter_head_eq_findSome g cs]

mutual
theorem findNodeEasy_eq (src : List Char) (p : Pattern) :
    ∀ t, findNodeEasy src p t =
      (preorder t).findSome? (fun u => (matchOne src p u).map (fun e => (u, e)))
  | .mk k a b cs => by
    simp only [findNodeEasy, preorder, List.findSome?_cons]
    cases h : matchOne src p (.mk k a b cs) with
    | some e => simp [h]
    | none => simp [h, findEasyList_eq src p cs]

theorem findEasyList_eq (src : List Char) (p : Pattern) :
    ∀ l, findEasyList src p l =
      (preorderList l).findSome? (fun u => (matchOne src p u).map (fun e => (u, e)))
  | [] => by simp [findEasyList, preorderList]
  | c :: cs => by
    rw [findEasyList, preorderList, findSome_append,
      ← findNodeEasy_eq src p c, ← findEasyList_eq src p cs]
    cases findNodeEasy src p c <;> rfl
end

mutual
theorem findNodeVec_eq (src : List Char) (p : Pattern) :
    ∀ t, findNodeVec src p t =
      (preorder t).filter (fun u => (matchOne src p u).isSome)
  | .mk k a b cs => by
    simp only [findNodeVec, preorder, List.filter_cons]
    cases h : (matchOne src p (.mk k a b cs)).isSome <;>
      simp [h, findVecList_eq src p cs]

theorem findVecList_eq (src : List Char) (p : Pattern) :
    ∀ l, findVecList src p l =
      (preorderList l).filter (fun u => (matchOne src p u).isSome)
  | [] => by simp [findVecList, preorderList]
  | c :: cs => by
    rw [findVecList, preorderList, List.filter_append,
      ← findNodeVec_eq src p c, ← findVecList_eq src p cs]
end

/-- C6: `find` returns the first node of the depth-first pre-order traversal
(node before its children, hence earliest in document order and an ancestor
before any descendant) at which `match_one` succeeds; `find_all` collects
every pre-order candidate at which `match_one` succeeds, each candidate tried
independently (descendants of matched nodes included); and the two entry
points agree — the head of `find_all`'s result is `find`'s result. -/
theorem find_preorder_spec (compile : String → Pattern) (n : Node) (patStr : String) :
    Node.find compile n patStr =
      (preorder n.inner).findSome?
        (fun u => (matchOne n.source (compile patStr) u).map
          (fun _ => ({ inner := u, source := n.source } : Node))) ∧
    Node.find_all compile n patStr =
      ((preorder n.inner).filter
        (fun u => (matchOne n.source (compile patStr) u).isSome)).map
        (fun u => { inner := u, source := n.source }) ∧
    (Node.find_all compile n patStr).head? = Node.find compile n patStr := by
  have h1 : Node.find compile n patStr =
      (preorder n.inner).findSome?
        (fun u => (matchOne n.source (compile patStr) u).map
          (fun _ => ({ inner := u, source := n.source } : Node))) := by
    unfold Node.find
    rw [findNodeEasy_eq, findSome_map]
    congr 1
    funext u
    cases matchOne n.source (compile patStr) u <;> rfl
  have h2 : Node.find_all compile n patStr =
      ((preorder n.inner).filter
        (fun u => (matchOne n.source (compile patStr) u).isSome)).map
        (fun u => ({ inner := u, source := n.source } : Node)) := by
    unfold Node.find_all
    rw [findNodeVec_eq]
  refine ⟨h1, h2, ?_⟩
  rw [h1, h2, List.head?_map, filter_head_eq_findSome, findSome_map, findSome_map]
  congr 1
  funext u
  cases matchOne n.source (compile patStr) u <;> rfl

/-- C7: the absence of a match is never an error — `find` returns the
explicit empty optional exactly when no pre-order candidate matches, and
being a total function into an optional it cannot raise anything. -/
theorem find_no_match_is_none (compile : String → Pattern) (n : Node) (patStr : String) :
    Node.find compile n patStr = none ↔
      ∀ u ∈ preorder n.inner, matchOne n.source (compile patStr) u = none := by
  unfold Node.find
  rw [Option.map_eq_none', findNodeEasy_eq, List.findSome?_eq_none_iff]
  constructor
  · intro h u hu
    have := h u hu
    rwa [Option.map_eq_none'] at this
  · intro h u hu
    rw [Option.map_eq_none']
    exact h u hu

/-- Witness for C7: a pattern whose kind occurs nowhere in the concrete
scenario tree; `find` evaluates to `none`, and the theorem turns that into
the no-candidate-matches statement. -/
theorem find_no_match_is_none_witness :
    ∀ u ∈ preorder letProgram,
      matchOne letSource (Pattern.leaf "nope" []) u = none :=
  (find_no_match_is_none (fun _ => Pattern.leaf "nope" []) letRootNode "nope").mp rfl

/-- C1: `replace` returns nothing exactly when `find` (same pattern string,
rooted at the same node) returns nothing; on success it returns an edit whose
position is the matched node's span start byte, whose deleted length is the
span length (end byte minus start byte), and whose inserted text is exactly
the replacer's output on the match's environment. -/
theorem replace_spec (compile : String → Pattern) (n : Node) (patStr : String)
    (r : Env → List Char) :
    (Node.find compile n patStr = none → (Node.replace compile n patStr r).1 = none) ∧
    (∀ t : Node, Node.find compile n patStr = some t →
      ∃ env, findNodeEasy n.source (compile patStr) n.inner = some (t.inner, env) ∧
        (Node.replace compile n patStr r).1 =
          some { position := t.inner.startByte,
                 deleted_length := t.inner.endByte - t.inner.startByte,
                 inserted_text := r env }) := by
  cases h : findNodeEasy n.source (compile patStr) n.inner with
  | none =>
    constructor
    · intro _
      simp [Node.replace, h]
    · intro t ht
      unfold Node.find at ht
      rw [h] at ht
      exact absurd ht (by simp)
  | some x =>
    cases x with
    | mk u env =>
      constructor
      · intro hf
        unfold Node.find at hf
        rw [h] at hf
        simp at hf
      · intro t ht
        unfold Node.find at ht
        rw [h] at ht
        simp only [Option.map_some'] at ht
        obtain rfl := Option.some.inj ht
        exact ⟨env, by simp [h], by simp [Node.replace, h]⟩

/-- Witness for C1: an all-capturing metavariable pattern on the concrete
scenario tree; `find` succeeds at the root and `replace` produces the edit
spanning bytes 0-11 with the replacer's output. -/
theorem replace_spec_witness :
    Node.find (fun _ => Pattern.metaVar "X") letRootNode "$X" = some letRootNode ∧
    (∃ env, findNodeEasy letSource (Pattern.metaVar "X") letProgram =
        some (letProgram, env) ∧
      (Node.replace (fun _ => Pattern.metaVar "X") letRootNode "$X"
          (fun _ => "x".data)).1 =
        some { position := letProgram.startByte,
               deleted_length := letProgram.endByte - letProgram.startByte,
               inserted_text := "x".data }) :=
  ⟨rfl, (replace_spec (fun _ => Pattern.metaVar "X") letRootNode "$X"
      (fun _ => "x".data)).2 letRootNode rfl⟩

theorem get?_append (i : Nat) : ∀ (p : List Nat) (R : TSNode),
    R.get? (p ++ [i]) = (R.get? p).bind (fun t => t.children.get? i)
  | [], R => by
    cases h : R.children[i]? <;> simp [TSNode.get?, h]
  | j :: p', R => by
    simp only [List.cons_append, TSNode.get?]
    cases h : R.children[j]? with
    | none => simp [h]
    | some c => simp [h, get?_append i p' c]

theorem parentAt_concat (R : TSNode) (p : List Nat) (i : Nat) :
    parentAt R (p ++ [i]) = (R.get? p).map (fun t => (p, t)) := by
  unfold parentAt
  rw [if_neg (by simp), List.dropLast_concat]

/-- C5: the parent/children round-trip law: a node reached as child `i` below
path `p` occurs among the elements yielded by its parent's `children()`;
every child slot of a parent points back to that parent via `parent`; and
`parent` returns nothing exactly at the root (the empty path). -/
theorem parent_children_roundtrip (R : TSNode) (src : List Char) :
    (∀ (p : List Nat) (i : Nat) (t : TSNode),
      R.get? (p ++ [i]) = some t →
      ∃ par, R.get? p = some par ∧
        (⟨t, src⟩ : Node) ∈ (Node.children ⟨par, src⟩).toList ∧
        parentAt R (p ++ [i]) = some (p, par)) ∧
    (∀ (p : List Nat) (par : TSNode) (j : Nat) (c : TSNode),
      R.get? p = some par → par.children.get? j = some c →
      parentAt R (p ++ [j]) = some (p, par)) ∧
    (∀ (q : List Nat) (t : TSNode), R.get? q = some t →
      (parentAt R q = none ↔ q = [])) := by
  refine ⟨?_, ?_, ?_⟩
  · intro p i t ht
    rw [get?_append] at ht
    rcases Option.bind_eq_some.mp ht with ⟨par, hpar, hchild⟩
    refine ⟨par, hpar, ?_, ?_⟩
    · rw [children_toList]
      exact List.mem_map_of_mem _ (List.get?_mem hchild)
    · rw [parentAt_concat, hpar]
      rfl
  · intro p par j c hpar hc
    rw [parentAt_concat, hpar]
    rfl
  · intro q t hq
    constructor
    · intro hnone
      by_contra hne
      rcases List.eq_nil_or_concat q with rfl | ⟨L, b, rfl⟩
      · exact hne rfl
      · rw [List.concat_eq_append] at hq hnone
        rw [get?_append] at hq
        rcases Option.bind_eq_some.mp hq with ⟨par, hpar, -⟩
        rw [parentAt_concat, hpar] at hnone
        exact Option.noConfusion hnone
    · rintro rfl
      rfl

/-- Witness for C5: in the concrete scenario tree, the `let` keyword node sits
at path `[0] ++ [0]`; its parent is the statement node, the keyword occurs
among the parent's `children()`, and `parent` of the keyword's path is the
statement at path `[0]`. -/
theorem parent_children_roundtrip_witness :
    letProgram.get? ([0] ++ [0]) = some letKeyword ∧
    (∃ par, letProgram.get? [0] = some par ∧
      (⟨letKeyword, letSource⟩ : Node) ∈ (Node.children ⟨par, letSource⟩).toList ∧
      parentAt letProgram ([0] ++ [0]) = some ([0], par)) :=
  ⟨rfl, (parent_children_roundtrip letProgram letSource).1 [0] 0 letKeyword rfl⟩
